import Mathlib

/-!
# Verification of the badam-sat game engine and server

Shallow embedding of the `badam-sat` repository:

* `badam-sat/src/games.rs` — the rule engine (`BadamSat`, `CardStack`,
  `PlayingArea`, `Transition`);
* `badam-sat/src/players.rs` — `Player` hands;
* `badam-sat-server/src/rooms.rs` — `Room` (roster, auto-deal, last move);
* `badam-sat-server/src/server.rs` — the dispatcher (room lookup and
  forwarding of room-scoped commands).

Rust `HashSet`s are modelled as `Finset`s, vectors as `List`s, fallible
functions as `Except`/`Option` results.  `&mut self` methods that also
return a `Result` are modelled as functions returning the updated value
paired with the result.  The random shuffle performed by
`BadamSat::deal` is modelled by passing the shuffled deck to `update`
explicitly; a legal shuffle is any permutation of `decks` standard
52-card decks.
-/

set_option maxHeartbeats 1000000

/-- The four suits of `card_deck::standard_deck::Suit`. -/
inductive Suit
  | hearts
  | diamonds
  | clubs
  | spades
deriving DecidableEq, Repr

/-- Rust `Suit::all_suits()` from the `card_deck` crate. -/
def Suit.all_suits : List Suit := [.hearts, .diamonds, .clubs, .spades]

/-- A normal playing card: suit plus rank value.  In the `card_deck`
crate rank values run 1 (Ace) .. 13 (King); `Card.valid` records that
range.  Equality is componentwise, as in Rust. -/
structure Card where
  suit : Suit
  rank : Nat
deriving DecidableEq, Repr

/-- The ranks representable by `card_deck::standard_deck::Rank`:
1 (Ace) through 13 (King). -/
def Card.valid (c : Card) : Prop := 1 ≤ c.rank ∧ c.rank ≤ 13

instance (c : Card) : Decidable c.valid := by
  unfold Card.valid; infer_instance

/-- Rust `Card::new_normal(Suit::Hearts, Rank::new(7))`, the designated
opening card of the game. -/
def sevenOfHearts : Card := ⟨.hearts, 7⟩

/-- One standard 52-card deck (4 suits × ranks 1..13). -/
def standardDeck : List Card :=
  (Suit.all_suits.map (fun s => (List.range 13).map (fun r => Card.mk s (r + 1)))).flatten

/-- Rust `StandardDeckBuilder::new().subdecks(d).build()`: `d` copies of the
standard deck. -/
def fullDeck (d : Nat) : List Card := (List.replicate d standardDeck).flatten

/-- Rust `games::StackState`. -/
inductive StackState
  | empty
  | sevenOnly
  | lowOnly (c : Card)
  | highOnly (c : Card)
  | lowAndHigh (low high : Card)
deriving DecidableEq, Repr

/-- Rust `games::CardStack`. -/
structure CardStack where
  suit : Suit
  stack_state : StackState
deriving DecidableEq, Repr

/-- Rust `games::InvalidPlay`. -/
inductive InvalidPlay
  | StackFull
  | SuitMismatch
  | RankMismatch
  | CardMismatch
deriving DecidableEq, Repr

/-- Rust `CardStack::new(suit)`. -/
def CardStack.new (suit : Suit) : CardStack := ⟨suit, .empty⟩

/-- Rust `CardStack::add` (games.rs:122-214).  Takes `&self` and returns
a fresh stack on success, so the receiver is never mutated; rank
comparisons use machine (truncated) subtraction exactly as the Rust
`usize` arithmetic does. -/
def CardStack.add (s : CardStack) (card : Card) : Except InvalidPlay CardStack :=
  if s.suit = card.suit then
    match s.stack_state with
    | .empty =>
        if card.rank = 7 then .ok ⟨s.suit, .sevenOnly⟩
        else .error .RankMismatch
    | .sevenOnly =>
        if card.rank = 6 then .ok ⟨s.suit, .lowOnly card⟩
        else if card.rank = 8 then .ok ⟨s.suit, .highOnly card⟩
        else .error .RankMismatch
    | .lowOnly stack_card =>
        if card.rank = stack_card.rank - 1 then .ok ⟨s.suit, .lowOnly card⟩
        else if card.rank = 8 then .ok ⟨s.suit, .lowAndHigh stack_card card⟩
        else .error .RankMismatch
    | .highOnly stack_card =>
        if card.rank = stack_card.rank + 1 then .ok ⟨s.suit, .highOnly card⟩
        else if card.rank = 6 then .ok ⟨s.suit, .lowAndHigh card stack_card⟩
        else .error .RankMismatch
    | .lowAndHigh low high =>
        if card.rank = low.rank - 1 then .ok ⟨s.suit, .lowAndHigh card high⟩
        else if card.rank = high.rank + 1 then .ok ⟨s.suit, .lowAndHigh low card⟩
        else if low.rank = 1 ∧ high.rank = 13 then .error .StackFull
        else .error .RankMismatch
  else .error .SuitMismatch

/-- Rust `games::PlayingArea`. -/
structure PlayingArea where
  card_stacks : List CardStack
deriving DecidableEq, Repr

/-- Rust `PlayingArea::with_deck_capacity` (games.rs:49-55). -/
def PlayingArea.with_deck_capacity (decks : Nat) : PlayingArea :=
  ⟨(Suit.all_suits.map (fun suit => List.replicate decks (CardStack.new suit))).flatten⟩

/-- Helper for `PlayingArea::try_play`: replace the first stack that
accepts the card. -/
def tryPlayList (card : Card) : List CardStack → Option (List CardStack)
  | [] => none
  | stack :: rest =>
      match stack.add card with
      | .ok new_stack => some (new_stack :: rest)
      | .error _ => (tryPlayList card rest).map (stack :: ·)

/-- Rust `PlayingArea::try_play` (games.rs:58-66): `none` models the
`Err(InvalidPlay::CardMismatch)` outcome. -/
def PlayingArea.try_play (pa : PlayingArea) (card : Card) : Option PlayingArea :=
  (tryPlayList card pa.card_stacks).map PlayingArea.mk

/-- Rust `PlayingArea::is_empty` (games.rs:68-72). -/
def PlayingArea.is_empty (pa : PlayingArea) : Bool :=
  pa.card_stacks.all (fun stack =>
    match stack.stack_state with
    | .empty => true
    | _ => false)

/-- Rust `players::Player`. -/
structure Player where
  hand : List Card
  max_card_count : Nat
deriving DecidableEq, Repr

/-- Rust `Player::with_capacity`. -/
def Player.with_capacity (hand_size : Nat) : Player := ⟨[], hand_size⟩

/-- Rust `Player::assign_cards` (players.rs:51-65) minus the capacity
assertion (which can only fire on a mis-sized deal). -/
def Player.assign_cards (p : Player) (cards : List Card) : Player :=
  let hand := p.hand ++ cards
  if p.max_card_count ≠ 0 then ⟨hand, p.max_card_count⟩
  else ⟨hand, hand.length⟩

/-- Rust `Player::remove_card` (players.rs:71-74): removes the first
occurrence.  The Rust version panics when the card is absent; claim
C10 shows the call sites only ever pass cards present in the hand. -/
def Player.remove_card (p : Player) (card : Card) : Player :=
  ⟨p.hand.erase card, p.max_card_count⟩

/-- Rust `Player::unique_cards_in_hand`. -/
def Player.unique_cards_in_hand (p : Player) : Finset Card := p.hand.toFinset

/-- Rust `Player::hand_len`. -/
def Player.hand_len (p : Player) : Nat := p.hand.length

/-- Rust `games::Transition`. -/
inductive Transition
  | DealCards
  | Play (player : Nat) (card : Card)
  | Pass (player : Nat)
deriving DecidableEq, Repr

/-- Rust `games::GameState`. -/
inductive GameState
  | PrePlay
  | InPlay (player : Nat) (valid_actions : Finset Transition)
  | Over (winner : Nat)
deriving DecidableEq

/-- Rust `games::InvalidTransition`. -/
inductive InvalidTransition
  | mk
deriving DecidableEq, Repr

/-- Rust `games::BadamSat`. -/
structure BadamSat where
  state : GameState
  players : List Player
  playing_area : PlayingArea
  decks : Nat
  player_count : Nat
deriving DecidableEq

/-- Rust `BadamSat::with_player_and_deck_capacity` (games.rs:230-246). -/
def BadamSat.with_player_and_deck_capacity (players decks : Nat) : BadamSat :=
  let num_cards := decks * 52
  let cards_per_player := num_cards / players
  let leftover := num_cards % players
  { state := .PrePlay
    players := List.replicate leftover (Player.with_capacity (cards_per_player + 1)) ++
      List.replicate (players - leftover) (Player.with_capacity cards_per_player)
    playing_area := PlayingArea.with_deck_capacity decks
    decks := decks
    player_count := players }

/-- Rust `self.players[i]`, total: out-of-range indexing (a Rust panic)
yields a default empty player. -/
def BadamSat.playerOf (g : BadamSat) (i : Nat) : Player := g.players.getD i ⟨[], 0⟩

/-- The per-stack card set inserted by the `flat_map` closure of
`BadamSat::find_valid_actions` (games.rs:358-402). -/
def nextPlayable (stack : CardStack) : Finset Card :=
  match stack.stack_state with
  | .empty => {⟨stack.suit, 7⟩}
  | .sevenOnly => {⟨stack.suit, 8⟩, ⟨stack.suit, 6⟩}
  | .lowOnly card =>
      if card.rank ≠ 1 then {⟨stack.suit, 8⟩, ⟨stack.suit, card.rank - 1⟩}
      else {⟨stack.suit, 8⟩}
  | .highOnly card =>
      if card.rank ≠ 13 then {⟨stack.suit, 6⟩, ⟨stack.suit, card.rank + 1⟩}
      else {⟨stack.suit, 6⟩}
  | .lowAndHigh low high =>
      (if low.rank ≠ 1 then {⟨stack.suit, low.rank - 1⟩} else ∅) ∪
      (if high.rank ≠ 13 then {⟨stack.suit, high.rank + 1⟩} else ∅)

/-- The `valid_cards` set of `BadamSat::find_valid_actions`: union of
`nextPlayable` over all stacks. -/
def BadamSat.validCards (g : BadamSat) : Finset Card :=
  g.playing_area.card_stacks.foldr (fun stack acc => nextPlayable stack ∪ acc) ∅

/-- The `actions` set of `BadamSat::find_valid_actions` before the
first-move restriction: plays of cards both next-playable somewhere and
present in the acting player's (de-duplicated) hand. -/
def BadamSat.playActions (g : BadamSat) (player_idx : Nat) : Finset Transition :=
  (g.validCards ∩ (g.playerOf player_idx).unique_cards_in_hand).image
    (fun card => Transition.Play player_idx card)

/-- The `retain` predicate of games.rs:414-420: while the playing area
is empty only the seven of hearts may be played. -/
def retainFirstMove : Transition → Bool
  | .DealCards => false
  | .Play _ card => card = sevenOfHearts
  | .Pass _ => true

/-- The candidate action set of `find_valid_actions` after the
first-move restriction but before the empty-set fallback to `Pass`. -/
def BadamSat.candidate_actions (g : BadamSat) (player_idx : Nat) : Finset Transition :=
  if g.playing_area.is_empty then (g.playActions player_idx).filter (fun t => retainFirstMove t)
  else g.playActions player_idx

/-- The action set `find_valid_actions` produces for `player_idx`:
candidate actions, or `{Pass player_idx}` when that set is empty. -/
def BadamSat.actions_for (g : BadamSat) (player_idx : Nat) : Finset Transition :=
  if g.candidate_actions player_idx = ∅ then {Transition.Pass player_idx}
  else g.candidate_actions player_idx

/-- Rust `BadamSat::find_valid_actions` (games.rs:343-426). -/
def BadamSat.find_valid_actions (g : BadamSat) : Option (Finset Transition) :=
  match g.state with
  | .PrePlay => some (g.actions_for 0)
  | .InPlay player _ =>
      if (g.playerOf player).hand_len = 0 then none
      else some (g.actions_for ((player + 1) % g.players.length))
  | .Over _ => none

/-- Distribute the shuffled deck: the loop body of `BadamSat::deal`
(games.rs:330-339).  `idx` is the player index, `taken` the number of
cards already taken from the deck. -/
def dealOut (deck : List Card) (cards_per_player leftover : Nat) :
    Nat → Nat → List Player → List Player
  | _, _, [] => []
  | idx, taken, p :: ps =>
      let cards_to_take := if idx < leftover then cards_per_player + 1 else cards_per_player
      p.assign_cards ((deck.drop taken).take cards_to_take) ::
        dealOut deck cards_per_player leftover (idx + 1) (taken + cards_to_take) ps

/-- Rust `BadamSat::deal` (games.rs:323-340), with the shuffled deck passed
in explicitly. -/
def BadamSat.deal (g : BadamSat) (deck : List Card) : BadamSat :=
  let num_cards := g.decks * 52
  { g with
    players := dealOut deck (num_cards / g.player_count) (num_cards % g.player_count)
      0 0 g.players }

/-- Rust `BadamSat::update` (games.rs:249-312).  The Rust method mutates
`&mut self` and returns `Result<(), InvalidTransition>`; here it
returns the updated game paired with that result.  `deck` stands for
the random shuffle drawn inside `deal` and is ignored by every
transition other than `DealCards`.  The `expect` on
`find_valid_actions` after dealing is modelled with `getD ∅` (the
`PrePlay` branch of `find_valid_actions` always returns `some`), and
the `unwrap` of `try_play` with `getD` of the unchanged area (claim
C10 shows accepted plays always succeed). -/
def BadamSat.update (g : BadamSat) (deck : List Card) (action : Transition) :
    BadamSat × Except InvalidTransition Unit :=
  match g.state, action with
  | .PrePlay, .DealCards =>
      let g' := g.deal deck
      ({ g' with state := .InPlay 0 (g'.find_valid_actions.getD ∅) }, .ok ())
  | .PrePlay, .Play _ _ => (g, .error .mk)
  | .PrePlay, .Pass _ => (g, .error .mk)
  | .InPlay _ _, .DealCards => (g, .error .mk)
  | .InPlay player va, .Play transition_player card =>
      if player = transition_player ∧ Transition.Play transition_player card ∈ va then
        let g1 := { g with
          playing_area := (g.playing_area.try_play card).getD g.playing_area
          players := g.players.set player ((g.playerOf player).remove_card card) }
        match g1.find_valid_actions with
        | some va' =>
            ({ g1 with state := .InPlay ((player + 1) % g1.players.length) va' }, .ok ())
        | none => ({ g1 with state := .Over player }, .ok ())
      else (g, .error .mk)
  | .InPlay player va, .Pass transition_player =>
      if player = transition_player ∧ Transition.Pass transition_player ∈ va then
        match g.find_valid_actions with
        | some va' =>
            ({ g with state := .InPlay ((player + 1) % g.players.length) va' }, .ok ())
        | none => ({ g with state := .Over player }, .ok ())
      else (g, .error .mk)
  | .Over _, _ => (g, .error .mk)

/-- Rust `BadamSat::winner`. -/
def BadamSat.winner (g : BadamSat) : Option Nat :=
  match g.state with
  | .Over w => some w
  | _ => none

/-- Rust `BadamSat::hand_of_player` (games.rs:434-436). -/
def BadamSat.hand_of_player (g : BadamSat) (player : Nat) : Option (List Card) :=
  (g.players.get? player).map (fun p => p.hand)

/-- Rust `BadamSat::hand_len` (games.rs:438-440). -/
def BadamSat.hand_len (g : BadamSat) (player : Nat) : Option Nat :=
  (g.players.get? player).map (fun p => p.hand_len)

/-- Rust `rooms::Action`: a player either plays a card or passes (named
`RoomAction` here because Mathlib already takes `Action`). -/
inductive RoomAction
  | Play (card : Card)
  | Pass
deriving DecidableEq, Repr

/-- The client-facing error variants of `errors.rs` that the room and
dispatcher code paths produce (`errors::ClientError`, used through
`errors::Error`). -/
inductive Error
  | InvalidMove
  | TooEarly
  | InvalidToken
  | InvalidRoomId
  | RoomFull
  | InvalidPlayerId
  | ServerFull
  | NoMove
deriving DecidableEq, Repr

instance {ε α : Type} [DecidableEq ε] [DecidableEq α] : DecidableEq (Except ε α) := by
  intro x y
  cases x <;> cases y
  case ok.ok a b =>
    exact if h : a = b then isTrue (by rw [h]) else isFalse (by simp [h])
  case error.error a b =>
    exact if h : a = b then isTrue (by rw [h]) else isFalse (by simp [h])
  all_goals exact isFalse (by simp)

/-- Rust `rooms::Room`. -/
structure Room where
  joined_players : Nat
  game : BadamSat
  max_player_count : Nat
  last_move : Option RoomAction
deriving DecidableEq

/-- The room value built by `Room::spawn` (rooms.rs:25-34) before it
starts serving messages. -/
def Room.spawn (players decks : Nat) : Room :=
  { joined_players := 0
    game := BadamSat.with_player_and_deck_capacity players decks
    max_player_count := players
    last_move := none }

/-- Rust `Room::is_full` (rooms.rs:79-81). -/
def Room.is_full (r : Room) : Bool := r.max_player_count = r.joined_players

/-- Rust `Room::join` (rooms.rs:65-76).  The PASETO claim is modelled by its
`subject` field: the joining player's index.  `deck` stands for the
shuffle used by the auto-triggered `DealCards`; the `unwrap` on that
update is dropped (its result is discarded in Rust as well). -/
def Room.join (r : Room) (deck : List Card) : Room × Except Error Nat :=
  if r.is_full then (r, .error .RoomFull)
  else
    let claim := r.joined_players
    let r1 := { r with joined_players := r.joined_players + 1 }
    if r1.is_full then
      ({ r1 with game := (r1.game.update deck Transition.DealCards).fst }, .ok claim)
    else (r1, .ok claim)

/-- The `match action` of rooms.rs:88-91 building the game transition. -/
def RoomAction.toTransition : RoomAction → Nat → Transition
  | .Play card, player => .Play player card
  | .Pass, player => .Pass player

/-- The `matches!(action, Action::Play(..))` test of rooms.rs:94. -/
def RoomAction.isPlay : RoomAction → Bool
  | .Play _ => true
  | .Pass => false

/-- Rust `Room::play` (rooms.rs:84-101). -/
def Room.play (r : Room) (action : RoomAction) (player : Nat) : Room × Except Error Unit :=
  if r.is_full = false then (r, .error .TooEarly)
  else
    match r.game.update [] (action.toTransition player) with
    | (game', .ok ()) =>
        ({ r with
            game := game'
            last_move := if action.isPlay then some action else r.last_move }, .ok ())
    | (game', .error _) => ({ r with game := game' }, .error .InvalidMove)

/-- Rust `Room::hand_of_player` (rooms.rs:109-114). -/
def Room.hand_of_player (r : Room) (player : Nat) : Except Error (List Card) :=
  match r.game.hand_of_player player with
  | some cards => .ok cards
  | none => .error .InvalidPlayerId

/-- Rust `Room::is_game_over`. -/
def Room.is_game_over (r : Room) : Bool := r.game.winner.isSome

/-- Rust `rooms::GameState`, the public snapshot (playing area plus
per-player hand counts). -/
structure RoomSnapshot where
  playing_area : PlayingArea
  card_counts : List Nat
deriving DecidableEq

/-- Rust `Room::game_state` (rooms.rs:121-128); the `unwrap` on `hand_len`
is modelled with `getD 0`. -/
def Room.game_state (r : Room) : RoomSnapshot :=
  { playing_area := r.game.playing_area
    card_counts := (List.range r.joined_players).map
      (fun player => (r.game.hand_len player).getD 0) }

/-- The dispatcher's view of one directory entry: the mpsc sender for a
room actor.  `alive` is false once the actor has exited (after its
five-minute quiescence timeout), in which case sending on the channel
or awaiting the oneshot reply fails. -/
structure RoomHandle where
  alive : Bool
  room : Room
deriving DecidableEq

/-- Rust `Server::join` (server.rs:110-132) for one room lookup result:
`lookup` is `self.rooms.get(room_id)`.  Channel send/receive failures
(actor exited) are `map_err`ed to `InvalidRoomId`; the signed token is
modelled by the claim it carries. -/
def Server.join (lookup : Option RoomHandle) (deck : List Card) : Except Error Nat :=
  match lookup with
  | some handle =>
      if handle.alive then (handle.room.join deck).snd
      else .error .InvalidRoomId
  | none => .error .InvalidRoomId

/-- Rust `Server::play` (server.rs:135-163).  Both roundtrips (the play
itself and the follow-up `GameOver` query, whose boolean reply is
discarded) fail exactly when the actor has exited, which the code
surfaces as `InvalidRoomId`. -/
def Server.play (lookup : Option RoomHandle) (action : RoomAction) (player : Nat) :
    Except Error Unit :=
  match lookup with
  | some handle =>
      if handle.alive then
        match (handle.room.play action player).snd with
        | .ok () => .ok ()
        | .error e => .error e
      else .error .InvalidRoomId
  | none => .error .InvalidRoomId

/-- Rust `Server::hand` (server.rs:165-180). -/
def Server.hand (lookup : Option RoomHandle) (player : Nat) : Except Error (List Card) :=
  match lookup with
  | some handle =>
      if handle.alive then handle.room.hand_of_player player
      else .error .InvalidRoomId
  | none => .error .InvalidRoomId

/-- Rust `Server::last_move` (server.rs:182-195): a stored move is returned,
an absent one becomes `NoMove`. -/
def Server.last_move (lookup : Option RoomHandle) : Except Error RoomAction :=
  match lookup with
  | some handle =>
      if handle.alive then
        match handle.room.last_move with
        | some action => .ok action
        | none => .error .NoMove
      else .error .InvalidRoomId
  | none => .error .InvalidRoomId

/-- Rust `Server::game_state` (server.rs:197-210). -/
def Server.game_state (lookup : Option RoomHandle) : Except Error RoomSnapshot :=
  match lookup with
  | some handle =>
      if handle.alive then .ok handle.room.game_state
      else .error .InvalidRoomId
  | none => .error .InvalidRoomId

/-- The games reachable from `BadamSat::with_player_and_deck_capacity
P D` by any sequence of `update` calls, where each call may use any
shuffle of the `D`-deck card pool. -/
inductive Reachable (P D : Nat) : BadamSat → Prop
  | init : Reachable P D (BadamSat.with_player_and_deck_capacity P D)
  | step (g : BadamSat) (deck : List Card) (t : Transition) :
      Reachable P D g → deck.Perm (fullDeck D) →
      Reachable P D (g.update deck t).fst

/-! ## Card counting and stack well-formedness -/

/-- The number of cards a stack state embeds: the contiguous run built
outward from the 7. -/
def StackState.count : StackState → Nat
  | .empty => 0
  | .sevenOnly => 1
  | .lowOnly c => 1 + (7 - c.rank)
  | .highOnly c => 1 + (c.rank - 7)
  | .lowAndHigh low high => 1 + (7 - low.rank) + (high.rank - 7)

/-- Rank bounds maintained by every reachable stack: the low card sits
at 6 or below, the high card at 8 or above. -/
def StackState.wf : StackState → Prop
  | .empty => True
  | .sevenOnly => True
  | .lowOnly c => 1 ≤ c.rank ∧ c.rank ≤ 6
  | .highOnly c => 8 ≤ c.rank ∧ c.rank ≤ 13
  | .lowAndHigh low high => (1 ≤ low.rank ∧ low.rank ≤ 6) ∧ (8 ≤ high.rank ∧ high.rank ≤ 13)

def CardStack.wf (s : CardStack) : Prop := s.stack_state.wf

/-- Cards currently embedded in the playing area. -/
def PlayingArea.totalCount (pa : PlayingArea) : Nat :=
  (pa.card_stacks.map (fun s => s.stack_state.count)).sum

/-- Cards currently held in hands. -/
def BadamSat.totalHand (g : BadamSat) : Nat :=
  (g.players.map (fun p => p.hand.length)).sum

/-- Total cards in play: hands plus playing area. -/
def BadamSat.totalCards (g : BadamSat) : Nat :=
  g.totalHand + g.playing_area.totalCount

/-- A successful `add` of a rank-valid card onto a well-formed stack
embeds exactly one more card and keeps the stack well-formed. -/
theorem CardStack.add_count {s : CardStack} {c : Card} {s' : CardStack}
    (hwf : s.wf) (h1 : 1 ≤ c.rank) (h13 : c.rank ≤ 13)
    (hadd : s.add c = .ok s') :
    s'.stack_state.count = s.stack_state.count + 1 ∧ s'.wf := by
  obtain ⟨suit, ss⟩ := s
  simp only [CardStack.wf] at hwf
  by_cases hsuit : suit = c.suit
  · cases ss with
    | empty =>
        simp only [CardStack.add, hsuit, if_true] at hadd
        split_ifs at hadd with h7
        cases hadd
        simp [StackState.count, CardStack.wf, StackState.wf]
    | sevenOnly =>
        simp only [CardStack.add, hsuit, if_true] at hadd
        split_ifs at hadd with h6 h8 <;> cases hadd <;>
          simp [StackState.count, CardStack.wf, StackState.wf] <;> omega
    | lowOnly sc =>
        simp only [StackState.wf] at hwf
        simp only [CardStack.add, hsuit, if_true] at hadd
        split_ifs at hadd with hlow h8 <;> cases hadd <;>
          simp [StackState.count, CardStack.wf, StackState.wf] <;> omega
    | highOnly sc =>
        simp only [StackState.wf] at hwf
        simp only [CardStack.add, hsuit, if_true] at hadd
        split_ifs at hadd with hhigh h6 <;> cases hadd <;>
          simp [StackState.count, CardStack.wf, StackState.wf] <;> omega
    | lowAndHigh low high =>
        simp only [StackState.wf] at hwf
        simp only [CardStack.add, hsuit, if_true] at hadd
        split_ifs at hadd with hlow hhigh hfull <;> cases hadd <;>
          simp [StackState.count, CardStack.wf, StackState.wf] <;> omega
  · simp only [CardStack.add, if_neg hsuit] at hadd
    cases hadd

/-- Every card that `find_valid_actions` lists as next-playable on a
stack is accepted by that stack's `add`. -/
theorem nextPlayable_accepts {s : CardStack} {c : Card} (h : c ∈ nextPlayable s) :
    ∃ s', s.add c = .ok s' := by
  obtain ⟨suit, ss⟩ := s
  cases ss with
  | empty =>
      simp only [nextPlayable, Finset.mem_singleton] at h
      subst h
      exact ⟨⟨suit, .sevenOnly⟩, by simp [CardStack.add]⟩
  | sevenOnly =>
      simp only [nextPlayable, Finset.mem_insert, Finset.mem_singleton] at h
      rcases h with rfl | rfl
      · exact ⟨⟨suit, .highOnly ⟨suit, 8⟩⟩, by simp [CardStack.add]⟩
      · exact ⟨⟨suit, .lowOnly ⟨suit, 6⟩⟩, by simp [CardStack.add]⟩
  | lowOnly sc =>
      simp only [nextPlayable] at h
      split_ifs at h with h1
      · simp only [Finset.mem_insert, Finset.mem_singleton] at h
        rcases h with rfl | rfl <;>
          · simp only [CardStack.add]
            split_ifs <;> first | exact ⟨_, rfl⟩ | simp_all | omega
      · simp only [Finset.mem_singleton] at h
        subst h
        simp only [CardStack.add]
        split_ifs <;> first | exact ⟨_, rfl⟩ | simp_all | omega
  | highOnly sc =>
      simp only [nextPlayable] at h
      split_ifs at h with h1
      · simp only [Finset.mem_insert, Finset.mem_singleton] at h
        rcases h with rfl | rfl <;>
          · simp only [CardStack.add]
            split_ifs <;> first | exact ⟨_, rfl⟩ | simp_all | omega
      · simp only [Finset.mem_singleton] at h
        subst h
        simp only [CardStack.add]
        split_ifs <;> first | exact ⟨_, rfl⟩ | simp_all | omega
  | lowAndHigh low high =>
      simp only [nextPlayable, Finset.mem_union] at h
      rcases h with h | h <;>
        · split_ifs at h with hg <;>
            simp only [Finset.mem_singleton, Finset.not_mem_empty] at h
          subst h
          simp only [CardStack.add]
          split_ifs <;> first | exact ⟨_, rfl⟩ | simp_all | omega

/-- Membership in the folded union that builds `validCards`. -/
theorem mem_foldr_union {c : Card} :
    ∀ {L : List CardStack},
      (c ∈ L.foldr (fun stack acc => nextPlayable stack ∪ acc) ∅ ↔
        ∃ s ∈ L, c ∈ nextPlayable s) := by
  intro L
  induction L with
  | nil => simp
  | cons s rest ih => simp [Finset.mem_union, ih]

/-- If some stack in the list accepts the card, `tryPlayList` succeeds. -/
theorem tryPlayList_isSome {c : Card} :
    ∀ {L : List CardStack}, (∃ s ∈ L, ∃ s', s.add c = .ok s') →
      (tryPlayList c L).isSome := by
  intro L
  induction L with
  | nil => rintro ⟨s, hs, _⟩; simp at hs
  | cons s0 rest ih =>
      rintro ⟨s, hs, s', hok⟩
      unfold tryPlayList
      cases hadd : s0.add c with
      | ok s'' => simp
      | error e =>
          have hrest : ∃ s ∈ rest, ∃ s', s.add c = .ok s' := by
            rcases List.mem_cons.mp hs with rfl | hmem
            · rw [hadd] at hok; cases hok
            · exact ⟨s, hmem, s', hok⟩
          have := ih hrest
          simpa using this

/-- A successful `tryPlayList` on well-formed stacks adds exactly one
embedded card and preserves well-formedness. -/
theorem tryPlayList_spec {c : Card} (h1 : 1 ≤ c.rank) (h13 : c.rank ≤ 13) :
    ∀ {L L' : List CardStack}, tryPlayList c L = some L' →
      (∀ s ∈ L, s.wf) →
      ((L'.map (fun s => s.stack_state.count)).sum =
        (L.map (fun s => s.stack_state.count)).sum + 1) ∧ (∀ s ∈ L', s.wf) := by
  intro L
  induction L with
  | nil => intro L' h _; simp [tryPlayList] at h
  | cons s0 rest ih =>
      intro L' h hwf
      unfold tryPlayList at h
      cases hadd : s0.add c with
      | ok s'' =>
          rw [hadd] at h
          simp only [Option.some.injEq] at h
          subst h
          have hcount := CardStack.add_count (hwf s0 (by simp)) h1 h13 hadd
          refine ⟨?_, ?_⟩
          · simp only [List.map_cons, List.sum_cons, hcount.1]
            omega
          · intro s hs
            rcases List.mem_cons.mp hs with rfl | hmem
            · exact hcount.2
            · exact hwf s (by simp [hmem])
      | error e =>
          rw [hadd] at h
          cases hrest : tryPlayList c rest with
          | none => rw [hrest] at h; simp at h
          | some rest' =>
              rw [hrest] at h
              simp only [Option.map_some', Option.some.injEq] at h
              subst h
              obtain ⟨hsum, hwf'⟩ := ih hrest (fun s hs => hwf s (by simp [hs]))
              refine ⟨?_, ?_⟩
              · simp only [List.map_cons, List.sum_cons, hsum]
                omega
              · intro s hs
                rcases List.mem_cons.mp hs with rfl | hmem
                · exact hwf s (by simp)
                · exact hwf' s hmem

/-- Replacing one list element changes a mapped sum by exactly the
difference at that position (stated addition-only to stay in `Nat`). -/
theorem sum_map_set {α : Type} (f : α → Nat) :
    ∀ (l : List α) (n : Nat) (a : α) (h : n < l.length),
      ((l.set n a).map f).sum + f (l.get ⟨n, h⟩) = (l.map f).sum + f a := by
  intro l
  induction l with
  | nil => intro n a h; simp at h
  | cons x xs ih =>
      intro n a h
      cases n with
      | zero => simp [List.set]; omega
      | succ m =>
          have hm : m < xs.length := by simpa using h
          have := ih m a hm
          simp only [List.set, List.map_cons, List.sum_cons, List.get_cons_succ]
          omega

/-- Unfolding membership in the play-action image set. -/
theorem mem_playActions {g : BadamSat} {pidx : Nat} {t : Transition} :
    t ∈ g.playActions pidx ↔
      ∃ c, t = .Play pidx c ∧ c ∈ g.validCards ∧ c ∈ (g.playerOf pidx).hand := by
  unfold BadamSat.playActions
  simp only [Finset.mem_image, Finset.mem_inter, Player.unique_cards_in_hand,
    List.mem_toFinset]
  constructor
  · rintro ⟨c, ⟨hv, hh⟩, rfl⟩
    exact ⟨c, rfl, hv, hh⟩
  · rintro ⟨c, rfl, hv, hh⟩
    exact ⟨c, ⟨hv, hh⟩, rfl⟩

/-- The set `find_valid_actions` produces is always non-empty. -/
theorem actions_for_nonempty (g : BadamSat) (pidx : Nat) :
    (g.actions_for pidx).Nonempty := by
  unfold BadamSat.actions_for
  split
  · exact ⟨_, Finset.mem_singleton_self _⟩
  · next h => exact Finset.nonempty_iff_ne_empty.mpr h

/-- Every action produced by `actions_for` is the fallback pass or a
candidate play. -/
theorem mem_actions_for {g : BadamSat} {pidx : Nat} {t : Transition}
    (h : t ∈ g.actions_for pidx) : t = .Pass pidx ∨ t ∈ g.playActions pidx := by
  unfold BadamSat.actions_for at h
  split at h
  · exact Or.inl (Finset.mem_singleton.mp h)
  · right
    unfold BadamSat.candidate_actions at h
    split at h
    · exact Finset.mem_of_mem_filter _ h
    · exact h

/-- A play listed among the valid actions names the acting player, a
card that is next-playable somewhere, and a card in that player's
hand. -/
theorem mem_actions_for_play {g : BadamSat} {pidx p : Nat} {c : Card}
    (h : Transition.Play p c ∈ g.actions_for pidx) :
    p = pidx ∧ c ∈ g.validCards ∧ c ∈ (g.playerOf pidx).hand := by
  rcases mem_actions_for h with h | h
  · cases h
  · rcases mem_playActions.mp h with ⟨c', heq, hv, hh⟩
    cases heq
    exact ⟨rfl, hv, hh⟩

/-- While the playing area is empty, only the seven of hearts survives
the first-move `retain` filter. -/
theorem mem_actions_for_empty_area {g : BadamSat} {pidx p : Nat} {c : Card}
    (hemp : g.playing_area.is_empty = true)
    (h : Transition.Play p c ∈ g.actions_for pidx) : c = sevenOfHearts := by
  unfold BadamSat.actions_for at h
  split at h
  · cases Finset.mem_singleton.mp h
  · unfold BadamSat.candidate_actions at h
    rw [hemp] at h
    simp only [if_true] at h
    have := (Finset.mem_filter.mp h).2
    simpa [retainFirstMove] using this

/-- In-range indexing returns an actual roster member. -/
theorem playerOf_mem {g : BadamSat} {i : Nat} (h : i < g.players.length) :
    g.playerOf i ∈ g.players := by
  unfold BadamSat.playerOf
  rw [List.getD_eq_getElem _ _ h]
  exact List.getElem_mem h

/-- The function `actions_for` only reads the roster and the playing area, never the
machine state. -/
theorem actions_for_state (g : BadamSat) (st : GameState) (pidx : Nat) :
    BadamSat.actions_for { g with state := st } pidx = g.actions_for pidx := rfl

/-- The function `assign_cards` always appends, whatever the capacity check says. -/
theorem Player.assign_cards_hand (p : Player) (cards : List Card) :
    (p.assign_cards cards).hand = p.hand ++ cards := by
  unfold Player.assign_cards
  split <;> rfl

theorem dealOut_length (deck : List Card) (q l : Nat) :
    ∀ (ps : List Player) (idx taken : Nat),
      (dealOut deck q l idx taken ps).length = ps.length := by
  intro ps
  induction ps with
  | nil => intro idx taken; rfl
  | cons p ps ih => intro idx taken; simp [dealOut, ih]

/-- Sum of the first `n` planned hand sizes when every index is below
the leftover threshold. -/
theorem range_if_sum_all (q : Nat) :
    ∀ (n l : Nat), n ≤ l →
      ((List.range n).map (fun k => if k < l then q + 1 else q)).sum = n * (q + 1) := by
  intro n
  induction n with
  | zero => intro l _; simp
  | succ m ih =>
      intro l hl
      rw [List.range_succ]
      have hlt : m < l := by omega
      simp [ih l (by omega), hlt, Nat.succ_mul]

/-- Sum of all planned hand sizes: `n` players with `l ≤ n` leftovers
receive `n*q + l` cards in total. -/
theorem range_if_sum (q : Nat) :
    ∀ (n l : Nat), l ≤ n →
      ((List.range n).map (fun k => if k < l then q + 1 else q)).sum = n * q + l := by
  intro n
  induction n with
  | zero => intro l hl; interval_cases l; simp
  | succ m ih =>
      intro l hl
      by_cases hlm : l ≤ m
      · rw [List.range_succ]
        have hnlt : ¬ m < l := by omega
        simp [ih l hlm, hnlt, Nat.succ_mul]
        omega
      · have : l = m + 1 := by omega
        subst this
        rw [range_if_sum_all q (m + 1) (m + 1) le_rfl]
        rw [Nat.mul_succ]

/-- When the deck holds enough cards, dealing to players with empty
hands produces exactly the planned hand sizes. -/
theorem dealOut_map_len (deck : List Card) (q l : Nat) :
    ∀ (ps : List Player) (idx taken : Nat),
      (∀ p ∈ ps, p.hand = []) →
      taken + ((List.range ps.length).map
        (fun k => if idx + k < l then q + 1 else q)).sum ≤ deck.length →
      (dealOut deck q l idx taken ps).map (fun p => p.hand.length) =
        (List.range ps.length).map (fun k => if idx + k < l then q + 1 else q) := by
  intro ps
  induction ps with
  | nil => intro idx taken _ _; rfl
  | cons p ps ih =>
      intro idx taken hempty hlen
      have hshift : ∀ k, (if idx + Nat.succ k < l then q + 1 else q) =
          (if (idx + 1) + k < l then q + 1 else q) := by
        intro k
        have : idx + Nat.succ k = (idx + 1) + k := by omega
        rw [this]
      have hrange : (List.range (p :: ps).length).map
          (fun k => if idx + k < l then q + 1 else q) =
          (if idx < l then q + 1 else q) ::
            (List.range ps.length).map (fun k => if (idx + 1) + k < l then q + 1 else q) := by
        simp only [List.length_cons, List.range_succ_eq_map, List.map_cons, Nat.add_zero,
          List.map_map]
        congr 1
        apply List.map_congr_left
        intro k _
        exact hshift k
      rw [hrange] at hlen ⊢
      set c0 : Nat := if idx < l then q + 1 else q with hc0
      simp only [List.sum_cons] at hlen
      have hsizes := ih (idx + 1) (taken + c0)
        (fun p hp => hempty p (by simp [hp])) (by omega)
      simp only [dealOut, List.map_cons, List.cons.injEq]
      refine ⟨?_, ?_⟩
      · rw [Player.assign_cards_hand, hempty p (by simp)]
        simp only [List.nil_append, List.length_take, List.length_drop, ← hc0]
        omega
      · rw [← hc0]
        exact hsizes

/-- Every card dealt out comes from the deck (or from a hand that
already held it). -/
theorem dealOut_mem_hand (deck : List Card) (q l : Nat) :
    ∀ (ps : List Player) (idx taken : Nat) (p : Player) (c : Card),
      p ∈ dealOut deck q l idx taken ps → c ∈ p.hand →
      (∃ p0 ∈ ps, c ∈ p0.hand) ∨ c ∈ deck := by
  intro ps
  induction ps with
  | nil => intro idx taken p c hp _; simp [dealOut] at hp
  | cons p0 ps ih =>
      intro idx taken p c hp hc
      simp only [dealOut, List.mem_cons] at hp
      rcases hp with rfl | hp
      · rw [Player.assign_cards_hand] at hc
        rcases List.mem_append.mp hc with hc | hc
        · exact Or.inl ⟨p0, by simp, hc⟩
        · exact Or.inr (List.mem_of_mem_drop (List.mem_of_mem_take hc))
      · rcases ih _ _ _ _ hp hc with ⟨p1, hp1, hc1⟩ | hdeck
        · exact Or.inl ⟨p1, by simp [hp1], hc1⟩
        · exact Or.inr hdeck

theorem standardDeck_length : standardDeck.length = 52 := by decide

theorem fullDeck_length (d : Nat) : (fullDeck d).length = d * 52 := by
  induction d with
  | zero => rfl
  | succ n ih =>
      unfold fullDeck at ih ⊢
      rw [List.replicate_succ, List.flatten_cons, List.length_append, ih,
        standardDeck_length, Nat.succ_mul]
      omega

theorem standardDeck_valid : ∀ c ∈ standardDeck, c.valid := by decide

theorem fullDeck_valid (d : Nat) : ∀ c ∈ fullDeck d, c.valid := by
  induction d with
  | zero => intro c hc; simp [fullDeck] at hc
  | succ n ih =>
      intro c hc
      unfold fullDeck at hc
      rw [List.replicate_succ, List.flatten_cons] at hc
      rcases List.mem_append.mp hc with hc | hc
      · exact standardDeck_valid c hc
      · exact ih c hc

/-- A playing area whose stacks are all empty embeds no cards. -/
theorem totalCount_empty {L : List CardStack}
    (h : ∀ s ∈ L, s.stack_state = .empty) :
    (L.map (fun s => s.stack_state.count)).sum = 0 := by
  apply List.sum_eq_zero
  intro x hx
  rcases List.mem_map.mp hx with ⟨s, hs, rfl⟩
  rw [h s hs]
  rfl

/-- Every stack created by `with_deck_capacity` is empty. -/
theorem with_deck_capacity_empty (decks : Nat) :
    ∀ s ∈ (PlayingArea.with_deck_capacity decks).card_stacks,
      s.stack_state = .empty := by
  intro s hs
  simp only [PlayingArea.with_deck_capacity, List.mem_flatten, List.mem_map] at hs
  obtain ⟨l, ⟨suit, _, rfl⟩, hmem⟩ := hs
  rw [List.eq_of_mem_replicate hmem]
  rfl

/-- The acceptance condition of `BadamSat::update`: deal from `PrePlay`,
or an in-turn play/pass drawn from the current valid actions. -/
def OkCond (g : BadamSat) (t : Transition) : Prop :=
  (g.state = .PrePlay ∧ t = .DealCards) ∨
  (∃ p va, g.state = .InPlay p va ∧
    ((∃ c, t = .Play p c) ∨ t = .Pass p) ∧ t ∈ va)

/-- A transition failing the acceptance condition is rejected wholesale:
`update` returns `InvalidTransition` and the game unchanged. -/
theorem update_err {g : BadamSat} {t : Transition} (deck : List Card)
    (h : ¬ OkCond g t) : g.update deck t = (g, .error .mk) := by
  obtain ⟨st, pls, pa, dk, pc⟩ := g
  cases st with
  | PrePlay =>
      cases t with
      | DealCards => exact absurd (Or.inl ⟨rfl, rfl⟩) h
      | Play p c => rfl
      | Pass p => rfl
  | InPlay p va =>
      cases t with
      | DealCards => rfl
      | Play tp c =>
          have hcond : ¬ (p = tp ∧ Transition.Play tp c ∈ va) := by
            rintro ⟨rfl, hmem⟩
            exact h (Or.inr ⟨p, va, rfl, Or.inl ⟨c, rfl⟩, hmem⟩)
          simp [BadamSat.update, hcond]
      | Pass tp =>
          have hcond : ¬ (p = tp ∧ Transition.Pass tp ∈ va) := by
            rintro ⟨rfl, hmem⟩
            exact h (Or.inr ⟨p, va, rfl, Or.inr rfl, hmem⟩)
          simp [BadamSat.update, hcond]
  | Over w => cases t <;> rfl

/-- A transition meeting the acceptance condition is accepted. -/
theorem update_ok {g : BadamSat} {t : Transition} (deck : List Card)
    (h : OkCond g t) : (g.update deck t).snd = .ok () := by
  obtain ⟨st, pls, pa, dk, pc⟩ := g
  rcases h with ⟨hst, rfl⟩ | ⟨p, va, hst, hshape, hmem⟩
  · cases hst
    rfl
  · cases hst
    rcases hshape with ⟨c, rfl⟩ | rfl
    · have hcond : p = p ∧ Transition.Play p c ∈ va := ⟨rfl, hmem⟩
      simp only [BadamSat.update, hcond, if_true, and_self]
      split <;> rfl
    · have hcond : p = p ∧ Transition.Pass p ∈ va := ⟨rfl, hmem⟩
      simp only [BadamSat.update, hcond, if_true, and_self]
      split <;> rfl

/-- The function `update` accepts exactly the transitions of `OkCond`. -/
theorem update_ok_iff (g : BadamSat) (deck : List Card) (t : Transition) :
    (g.update deck t).snd = .ok () ↔ OkCond g t := by
  constructor
  · intro hok
    by_contra h
    rw [update_err deck h] at hok
    cases hok
  · exact update_ok deck

/-- All cards held in hands are representable ranks. -/
def HandsValid (g : BadamSat) : Prop := ∀ p ∈ g.players, ∀ c ∈ p.hand, c.valid

/-- All stacks of the playing area are well-formed. -/
def StacksWF (g : BadamSat) : Prop := ∀ s ∈ g.playing_area.card_stacks, s.wf

/-- The reachability invariant of `BadamSat`: bookkeeping fields are
stable, hands and stacks stay well-formed, cards are conserved once
dealt, and the stored `valid_actions` is exactly what
`find_valid_actions` computes for the current player. -/
def GameInv (P D : Nat) (g : BadamSat) : Prop :=
  g.player_count = P ∧ g.decks = D ∧ g.players.length = P ∧
  HandsValid g ∧ StacksWF g ∧
  (match g.state with
   | .PrePlay =>
       (∀ p ∈ g.players, p.hand = []) ∧
       (∀ s ∈ g.playing_area.card_stacks, s.stack_state = .empty)
   | .InPlay pidx va => g.totalCards = D * 52 ∧ va = g.actions_for pidx ∧ pidx < P
   | .Over _ => g.totalCards = D * 52)

theorem playerOf_eq_get {g : BadamSat} {i : Nat} (h : i < g.players.length) :
    g.playerOf i = g.players.get ⟨i, h⟩ := by
  unfold BadamSat.playerOf
  rw [List.getD_eq_getElem _ _ h, List.get_eq_getElem]

theorem inv_init {P D : Nat} (hP : 1 ≤ P) :
    GameInv P D (BadamSat.with_player_and_deck_capacity P D) := by
  have hmod : D * 52 % P < P := Nat.mod_lt _ (by omega)
  have hhand : ∀ p ∈ (BadamSat.with_player_and_deck_capacity P D).players, p.hand = [] := by
    intro p hp
    simp only [BadamSat.with_player_and_deck_capacity, List.mem_append] at hp
    rcases hp with hp | hp <;> rw [List.eq_of_mem_replicate hp] <;> rfl
  refine ⟨rfl, rfl, ?_, ?_, ?_, hhand, with_deck_capacity_empty D⟩
  · simp only [BadamSat.with_player_and_deck_capacity, List.length_append,
      List.length_replicate]
    omega
  · intro p hp c hc
    rw [hhand p hp] at hc
    cases hc
  · intro s hs
    have := with_deck_capacity_empty D s hs
    unfold CardStack.wf
    rw [this]
    trivial

theorem inv_step {P D : Nat} (hP : 1 ≤ P) {g : BadamSat} (hinv : GameInv P D g)
    {deck : List Card} (hdeck : deck.Perm (fullDeck D)) (t : Transition) :
    GameInv P D (g.update deck t).fst := by
  obtain ⟨hpc, hdk, hlen, hvalid, hwf, hstate⟩ := hinv
  obtain ⟨st, pls, pa, dk, pc⟩ := g
  simp only at hpc hdk hlen hvalid hwf hstate
  symm at hpc hdk
  subst hpc hdk
  cases st with
  | PrePlay =>
      obtain ⟨hhands, hstacks⟩ := hstate
      cases t with
      | Play p c => exact ⟨rfl, rfl, hlen, hvalid, hwf, hhands, hstacks⟩
      | Pass p => exact ⟨rfl, rfl, hlen, hvalid, hwf, hhands, hstacks⟩
      | DealCards =>
          have hdl : deck.length = D * 52 := by rw [hdeck.length_eq, fullDeck_length]
          have hmod : D * 52 % P < P := Nat.mod_lt _ (by omega)
          have hdivmod : P * (D * 52 / P) + D * 52 % P = D * 52 := Nat.div_add_mod _ _
          have hml := dealOut_map_len deck (D * 52 / P) (D * 52 % P) pls 0 0 hhands (by
            simp only [Nat.zero_add, hlen]
            rw [range_if_sum _ P (D * 52 % P) (by omega)]
            omega)
          have hlen' : (dealOut deck (D * 52 / P) (D * 52 % P) 0 0 pls).length = P := by
            rw [dealOut_length, hlen]
          refine ⟨rfl, rfl, hlen', ?_, hwf, ?_, rfl, by omega⟩
          · intro p hp c hc
            rcases dealOut_mem_hand deck _ _ pls 0 0 p c hp hc with ⟨p0, hp0, hc0⟩ | hd
            · rw [hhands p0 hp0] at hc0
              cases hc0
            · exact fullDeck_valid D c (hdeck.mem_iff.mp hd)
          · show ((dealOut deck (D * 52 / P) (D * 52 % P) 0 0 pls).map
                (fun p => p.hand.length)).sum +
              (pa.card_stacks.map (fun s => s.stack_state.count)).sum = D * 52
            rw [totalCount_empty hstacks, hml]
            simp only [Nat.zero_add, hlen]
            rw [range_if_sum _ P (D * 52 % P) (by omega)]
            omega
  | Over w =>
      cases t with
      | DealCards => exact ⟨rfl, rfl, hlen, hvalid, hwf, hstate⟩
      | Play p c => exact ⟨rfl, rfl, hlen, hvalid, hwf, hstate⟩
      | Pass p => exact ⟨rfl, rfl, hlen, hvalid, hwf, hstate⟩
  | InPlay p va =>
      obtain ⟨htot, hva, hplt⟩ := hstate
      have hplen : p < pls.length := by omega
      cases t with
      | DealCards => exact ⟨rfl, rfl, hlen, hvalid, hwf, htot, hva, hplt⟩
      | Pass tp =>
          by_cases hcond : p = tp ∧ Transition.Pass tp ∈ va
          · obtain ⟨rfl, hmem0⟩ := hcond
            simp only [BadamSat.update, hmem0, eq_self_iff_true, and_self, if_true]
            split
            next va' hfva =>
              simp only [BadamSat.find_valid_actions] at hfva
              split_ifs at hfva with hh0
              simp only [Option.some.injEq] at hfva
              refine ⟨rfl, rfl, hlen, hvalid, hwf, htot, hfva.symm, ?_⟩
              rw [hlen]
              exact Nat.mod_lt _ (by omega)
            next hfva => exact ⟨rfl, rfl, hlen, hvalid, hwf, htot⟩
          · simp only [BadamSat.update, hcond, if_false]
            exact ⟨rfl, rfl, hlen, hvalid, hwf, htot, hva, hplt⟩
      | Play tp c =>
          by_cases hcond : p = tp ∧ Transition.Play tp c ∈ va
          · obtain ⟨rfl, hmem0⟩ := hcond
            have hmem := hmem0
            rw [hva] at hmem
            obtain ⟨-, hcv, hch⟩ := mem_actions_for_play hmem
            unfold BadamSat.validCards at hcv
            obtain ⟨s, hsmem, hsnext⟩ := mem_foldr_union.mp hcv
            have hsome := tryPlayList_isSome ⟨s, hsmem, nextPlayable_accepts hsnext⟩
            obtain ⟨stacks', htp⟩ := Option.isSome_iff_exists.mp hsome
            have hpmem : BadamSat.playerOf ⟨.InPlay p va, pls, pa, D, P⟩ p ∈ pls :=
              playerOf_mem hplen
            have hcvld : c.valid := hvalid _ hpmem c hch
            have hspec := tryPlayList_spec hcvld.1 hcvld.2 htp hwf
            simp only [BadamSat.update, hmem0, eq_self_iff_true, and_self, if_true,
              PlayingArea.try_play, htp, Option.map_some', Option.getD_some]
            have hlenset : (pls.set p (Player.remove_card
                (BadamSat.playerOf ⟨.InPlay p va, pls, pa, D, P⟩ p) c)).length = P := by
              rw [List.length_set, hlen]
            have hvalid' : ∀ pl ∈ pls.set p (Player.remove_card
                (BadamSat.playerOf ⟨.InPlay p va, pls, pa, D, P⟩ p) c),
                ∀ c' ∈ pl.hand, c'.valid := by
              intro pl hpl c' hc'
              rcases List.mem_or_eq_of_mem_set hpl with hmem' | rfl
              · exact hvalid pl hmem' c' hc'
              · exact hvalid _ hpmem c' (List.mem_of_mem_erase hc')
            have htot' : ((pls.set p (Player.remove_card
                  (BadamSat.playerOf ⟨.InPlay p va, pls, pa, D, P⟩ p) c)).map
                  (fun q => q.hand.length)).sum +
                (stacks'.map (fun s => s.stack_state.count)).sum = D * 52 := by
              have hsumset := sum_map_set (fun q => q.hand.length) pls p
                (Player.remove_card
                  (BadamSat.playerOf ⟨.InPlay p va, pls, pa, D, P⟩ p) c) hplen
              have hpget : BadamSat.playerOf ⟨.InPlay p va, pls, pa, D, P⟩ p =
                  pls.get ⟨p, hplen⟩ := by
                show pls.getD p ⟨[], 0⟩ = pls.get ⟨p, hplen⟩
                rw [List.getD_eq_getElem _ _ hplen, List.get_eq_getElem]
              rw [← hpget] at hsumset
              simp only [Player.remove_card] at hsumset ⊢
              have herase : ((BadamSat.playerOf
                    ⟨.InPlay p va, pls, pa, D, P⟩ p).hand.erase c).length + 1 =
                  (BadamSat.playerOf ⟨.InPlay p va, pls, pa, D, P⟩ p).hand.length := by
                rw [List.length_erase_of_mem hch]
                have := List.length_pos_of_mem hch
                omega
              have htot2 : (pls.map (fun q => q.hand.length)).sum +
                  (pa.card_stacks.map (fun s => s.stack_state.count)).sum = D * 52 := htot
              have hsum1 : (stacks'.map (fun s => s.stack_state.count)).sum =
                  (pa.card_stacks.map (fun s => s.stack_state.count)).sum + 1 := hspec.1
              omega
            split
            next va' hfva =>
              simp only [BadamSat.find_valid_actions] at hfva
              split_ifs at hfva with hh0
              simp only [Option.some.injEq] at hfva
              refine ⟨rfl, rfl, hlenset, hvalid', hspec.2, ?_, hfva.symm, ?_⟩
              · exact htot'
              · rw [hlenset]
                exact Nat.mod_lt _ (by omega)
            next hfva =>
              exact ⟨rfl, rfl, hlenset, hvalid', hspec.2, htot'⟩
          · simp only [BadamSat.update, hcond, if_false]
            exact ⟨rfl, rfl, hlen, hvalid, hwf, htot, hva, hplt⟩

/-- Every reachable game satisfies the invariant. -/
theorem inv_reachable {P D : Nat} (hP : 1 ≤ P) {g : BadamSat}
    (h : Reachable P D g) : GameInv P D g := by
  induction h with
  | init => exact inv_init hP
  | step g deck t _ hperm ih => exact inv_step hP ih hperm t

/-! ## Claim theorems -/

/-- C1: `update(t)` returns `Ok` exactly when the state is `PrePlay`
and `t` is `DealCards`, or the state is `InPlay{current_player,
valid_actions}` and `t` is an in-turn `Play`/`Pass` that is a member of
`valid_actions`; in every other case — including anything attempted
while `Over` — it returns `InvalidTransition` and leaves state, hands
and playing area exactly as they were. -/
theorem claim_C1 (g : BadamSat) (deck : List Card) (t : Transition) :
    ((g.update deck t).snd = .ok () ↔ OkCond g t) ∧
    (¬ OkCond g t →
      (g.update deck t).snd = .error .mk ∧ (g.update deck t).fst = g) := by
  refine ⟨update_ok_iff g deck t, fun h => ?_⟩
  rw [update_err deck h]
  exact ⟨rfl, rfl⟩

theorem claim_C1_witness :
    ¬ OkCond (BadamSat.with_player_and_deck_capacity 2 1) (Transition.Pass 0) ∧
    ((BadamSat.with_player_and_deck_capacity 2 1).update [] (Transition.Pass 0)).snd
      = .error .mk ∧
    ((BadamSat.with_player_and_deck_capacity 2 1).update [] (Transition.Pass 0)).fst
      = BadamSat.with_player_and_deck_capacity 2 1 := by
  have hn : ¬ OkCond (BadamSat.with_player_and_deck_capacity 2 1) (Transition.Pass 0) := by
    rintro (⟨-, ht⟩ | ⟨p, va, hst, -, -⟩)
    · cases ht
    · exact GameState.noConfusion hst
  exact ⟨hn, (claim_C1 (BadamSat.with_player_and_deck_capacity 2 1) [] (Transition.Pass 0)).2 hn⟩

/-- The game right after dealing: used as a concrete sample state. -/
def dealtGame (P D : Nat) (deck : List Card) : BadamSat :=
  ((BadamSat.with_player_and_deck_capacity P D).update deck Transition.DealCards).fst

/-- C2 counterexample: the claim quantifies over every state reachable
by any (possibly empty) sequence of update calls, but the freshly
created game has dealt no cards yet: hands plus stacks total 0, not
decks × 52. -/
theorem claim_C2_counterexample :
    Reachable 2 1 (BadamSat.with_player_and_deck_capacity 2 1) ∧
    (BadamSat.with_player_and_deck_capacity 2 1).totalCards = 0 ∧
    (0 : Nat) ≠ 1 * 52 := by
  exact ⟨Reachable.init, by decide, by decide⟩

/-- C2 (amended): in every reachable state that has left `PrePlay`
(i.e. once `DealCards` has been applied), the cards in all hands plus
the cards embedded in the playing area total decks × 52. -/
theorem claim_C2 {P D : Nat} {g : BadamSat} (hP : 1 ≤ P)
    (hreach : Reachable P D g) (hdealt : g.state ≠ .PrePlay) :
    g.totalCards = D * 52 := by
  obtain ⟨-, -, -, -, -, hstate⟩ := inv_reachable hP hreach
  rcases hst : g.state with _ | ⟨p, va⟩ | w
  · exact absurd hst hdealt
  · simp only [hst] at hstate
    exact hstate.1
  · simp only [hst] at hstate
    exact hstate

theorem claim_C2_witness : (dealtGame 1 0 []).totalCards = 0 * 52 :=
  claim_C2 (le_refl 1)
    (Reachable.step _ [] _ Reachable.init (List.Perm.refl _)) (by decide)

/-- C3: every reachable `InPlay` state carries a non-empty action set;
when the candidate set (next-playable cards ∩ de-duplicated hand,
restricted to the opening card while the area is empty) is empty, the
action set is exactly the singleton pass. -/
theorem claim_C3 {P D : Nat} {g : BadamSat} {pidx : Nat} {va : Finset Transition}
    (hP : 1 ≤ P) (hreach : Reachable P D g) (hst : g.state = .InPlay pidx va) :
    va.Nonempty ∧ (g.candidate_actions pidx = ∅ → va = {Transition.Pass pidx}) := by
  obtain ⟨-, -, -, -, -, hstate⟩ := inv_reachable hP hreach
  simp only [hst] at hstate
  obtain ⟨-, hva, -⟩ := hstate
  subst hva
  constructor
  · exact actions_for_nonempty g pidx
  · intro hempty
    unfold BadamSat.actions_for
    rw [if_pos hempty]

theorem claim_C3_witness :
    ({Transition.Pass 0} : Finset Transition).Nonempty ∧
    ((dealtGame 1 0 []).candidate_actions 0 = ∅ →
      ({Transition.Pass 0} : Finset Transition) = {Transition.Pass 0}) :=
  @claim_C3 1 0 (dealtGame 1 0 []) 0 {Transition.Pass 0} (le_refl 1)
    (Reachable.step _ [] _ Reachable.init (List.Perm.refl _)) (by decide)

/-- C4: while the whole playing area is empty, the valid-action set of
a reachable `InPlay` state contains no play other than the seven of
hearts, so the first accepted play of a fresh game is the seven of
hearts and any other first play is rejected; once the area is
non-empty the first-move restriction is not applied. -/
theorem claim_C4 {P D : Nat} {g : BadamSat} {pidx : Nat} {va : Finset Transition}
    (hP : 1 ≤ P) (hreach : Reachable P D g) (hst : g.state = .InPlay pidx va)
    (hemp : g.playing_area.is_empty = true) :
    (∀ p c, Transition.Play p c ∈ va → c = sevenOfHearts) ∧
    (∀ deck p c, (g.update deck (Transition.Play p c)).snd = .ok () →
      c = sevenOfHearts) ∧
    (∀ (g' : BadamSat) (i : Nat), g'.playing_area.is_empty = false →
      g'.candidate_actions i = g'.playActions i) := by
  obtain ⟨-, -, -, -, -, hstate⟩ := inv_reachable hP hreach
  simp only [hst] at hstate
  obtain ⟨-, hva, -⟩ := hstate
  refine ⟨?_, ?_, ?_⟩
  · intro p c hmem
    rw [hva] at hmem
    exact mem_actions_for_empty_area hemp hmem
  · intro deck p c hok
    rcases (update_ok_iff g deck _).mp hok with ⟨-, habs⟩ | ⟨p', va', hst', -, hmem⟩
    · cases habs
    · rw [hst] at hst'
      injection hst' with h1 h2
      subst h1 h2
      rw [hva] at hmem
      exact mem_actions_for_empty_area hemp hmem
  · intro g' i hne
    unfold BadamSat.candidate_actions
    rw [hne]
    simp

theorem claim_C4_witness :
    (∀ p c, Transition.Play p c ∈ ({Transition.Pass 0} : Finset Transition) →
      c = sevenOfHearts) ∧
    (∀ deck p c, ((dealtGame 1 0 []).update deck (Transition.Play p c)).snd = .ok () →
      c = sevenOfHearts) ∧
    (∀ (g' : BadamSat) (i : Nat), g'.playing_area.is_empty = false →
      g'.candidate_actions i = g'.playActions i) :=
  @claim_C4 1 0 (dealtGame 1 0 []) 0 {Transition.Pass 0} (le_refl 1)
    (Reachable.step _ [] _ Reachable.init (List.Perm.refl _)) (by decide) (by decide)

/-- C5: `CardStack::add` follows the build order exactly — `Empty`
accepts only the rank 7 of its suit, `SevenOnly` accepts 6 or 8,
`LowOnly`/`HighOnly` extend outward or complete to `LowAndHigh`,
`LowAndHigh` extends either end; wrong-suit cards fail with
`SuitMismatch`, an Ace-to-King stack fails everything with
`StackFull`, all other same-suit failures are `RankMismatch`.
(The receiver is `&self`, so a rejection cannot mutate the stack:
`add` is modelled as a pure function.)  The rank hypotheses restrict
`c` to the ranks `card_deck` can represent; the bound on the stored
low/high card in the completion cases reflects every reachable stack
(see `StackState.wf`). -/
theorem claim_C5 (s : CardStack) (c : Card) (h1 : 1 ≤ c.rank) (h13 : c.rank ≤ 13) :
    (s.suit ≠ c.suit → s.add c = .error .SuitMismatch) ∧
    (s.suit = c.suit →
      ((s.stack_state = .empty →
          (c.rank = 7 → s.add c = .ok ⟨s.suit, .sevenOnly⟩) ∧
          (c.rank ≠ 7 → s.add c = .error .RankMismatch)) ∧
       (s.stack_state = .sevenOnly →
          (c.rank = 6 → s.add c = .ok ⟨s.suit, .lowOnly c⟩) ∧
          (c.rank = 8 → s.add c = .ok ⟨s.suit, .highOnly c⟩) ∧
          (c.rank ≠ 6 → c.rank ≠ 8 → s.add c = .error .RankMismatch)) ∧
       (∀ sc, s.stack_state = .lowOnly sc →
          (c.rank = sc.rank - 1 → s.add c = .ok ⟨s.suit, .lowOnly c⟩) ∧
          (sc.rank ≤ 6 → c.rank = 8 → s.add c = .ok ⟨s.suit, .lowAndHigh sc c⟩) ∧
          (c.rank ≠ sc.rank - 1 → c.rank ≠ 8 → s.add c = .error .RankMismatch)) ∧
       (∀ sc, s.stack_state = .highOnly sc →
          (c.rank = sc.rank + 1 → s.add c = .ok ⟨s.suit, .highOnly c⟩) ∧
          (8 ≤ sc.rank → c.rank = 6 → s.add c = .ok ⟨s.suit, .lowAndHigh c sc⟩) ∧
          (c.rank ≠ sc.rank + 1 → c.rank ≠ 6 → s.add c = .error .RankMismatch)) ∧
       (∀ low high, s.stack_state = .lowAndHigh low high →
          (c.rank = low.rank - 1 → s.add c = .ok ⟨s.suit, .lowAndHigh c high⟩) ∧
          (c.rank ≠ low.rank - 1 → c.rank = high.rank + 1 →
            s.add c = .ok ⟨s.suit, .lowAndHigh low c⟩) ∧
          (low.rank = 1 → high.rank = 13 → s.add c = .error .StackFull) ∧
          (c.rank ≠ low.rank - 1 → c.rank ≠ high.rank + 1 →
            ¬(low.rank = 1 ∧ high.rank = 13) → s.add c = .error .RankMismatch)))) := by
  obtain ⟨suit, ss⟩ := s
  constructor
  · intro hsuit
    simp only [CardStack.add, if_neg hsuit]
  · intro hsuit
    have hs : suit = c.suit := hsuit
    refine ⟨?_, ?_, ?_, ?_, ?_⟩
    · rintro rfl
      constructor
      · intro h7
        simp [CardStack.add, hs, h7]
      · intro h7
        simp [CardStack.add, hs, h7]
    · rintro rfl
      refine ⟨?_, ?_, ?_⟩
      · intro h6
        simp [CardStack.add, hs, h6]
      · intro h8
        have h6 : c.rank ≠ 6 := by omega
        simp [CardStack.add, hs, h6, h8]
      · intro h6 h8
        simp [CardStack.add, hs, h6, h8]
    · rintro sc rfl
      refine ⟨?_, ?_, ?_⟩
      · intro hlow
        simp [CardStack.add, hs, hlow]
      · intro hsc6 h8
        have hne : c.rank ≠ sc.rank - 1 := by omega
        simp [CardStack.add, hs, hne, h8]
        omega
      · intro hne h8
        simp [CardStack.add, hs, hne, h8]
    · rintro sc rfl
      refine ⟨?_, ?_, ?_⟩
      · intro hhigh
        simp [CardStack.add, hs, hhigh]
      · intro hsc8 h6
        have hne : c.rank ≠ sc.rank + 1 := by omega
        simp [CardStack.add, hs, hne, h6]
        omega
      · intro hne h6
        simp [CardStack.add, hs, hne, h6]
    · rintro low high rfl
      refine ⟨?_, ?_, ?_, ?_⟩
      · intro hlow
        simp [CardStack.add, hs, hlow]
      · intro hne hhigh
        simp [CardStack.add, hs, hne, hhigh]
        intro hcontra
        exfalso
        omega
      · intro hl1 hh13
        have hne1 : c.rank ≠ low.rank - 1 := by omega
        have hne2 : c.rank ≠ high.rank + 1 := by omega
        have h0 : c.rank ≠ 0 := by omega
        have h14 : c.rank ≠ 14 := by omega
        simp [CardStack.add, hs, hne1, hne2, hl1, hh13, h0, h14]
      · intro hne1 hne2 hnfull
        simp [CardStack.add, hs, hne1, hne2, hnfull]

theorem claim_C5_witness :
    (CardStack.mk Suit.hearts StackState.empty).add ⟨Suit.hearts, 7⟩ =
      .ok ⟨Suit.hearts, StackState.sevenOnly⟩ :=
  (((claim_C5 ⟨Suit.hearts, StackState.empty⟩ ⟨Suit.hearts, 7⟩
    (by decide) (by decide)).2 rfl).1 rfl).1 rfl

theorem with_player_hands_empty (P D : Nat) :
    ∀ p ∈ (BadamSat.with_player_and_deck_capacity P D).players, p.hand = [] := by
  intro p hp
  simp only [BadamSat.with_player_and_deck_capacity, List.mem_append] at hp
  rcases hp with hp | hp <;> rw [List.eq_of_mem_replicate hp] <;> rfl

theorem with_player_length {P : Nat} (D : Nat) (hP : 1 ≤ P) :
    (BadamSat.with_player_and_deck_capacity P D).players.length = P := by
  have : D * 52 % P < P := Nat.mod_lt _ (by omega)
  simp only [BadamSat.with_player_and_deck_capacity, List.length_append,
    List.length_replicate]
  omega

/-- The roster of the game right after dealing, unfolded. -/
theorem dealtGame_players (P D : Nat) (deck : List Card) :
    (dealtGame P D deck).players =
      dealOut deck (D * 52 / P) (D * 52 % P) 0 0
        (BadamSat.with_player_and_deck_capacity P D).players := rfl

/-- C6: after a successful `DealCards` in a game of `P` players and `D`
decks dealt from a full shuffled deck, player `i` holds
`D*52/P + 1` cards when `i < D*52 % P` and `D*52/P` otherwise; the
one-extra hands go to the first players in index order (that is the
`i < D*52 % P` condition), every card is dealt, and any two hands
differ in size by at most one. -/
theorem claim_C6 (P D : Nat) (deck : List Card) (hP : 1 ≤ P)
    (hlen : deck.length = D * 52) :
    (∀ i (hp : i < (dealtGame P D deck).players.length),
      ((dealtGame P D deck).players.get ⟨i, hp⟩).hand.length =
        if i < D * 52 % P then D * 52 / P + 1 else D * 52 / P) ∧
    ((dealtGame P D deck).players.map (fun p => p.hand.length)).sum = D * 52 ∧
    (∀ i j (hi : i < (dealtGame P D deck).players.length)
        (hj : j < (dealtGame P D deck).players.length),
      ((dealtGame P D deck).players.get ⟨i, hi⟩).hand.length ≤
        ((dealtGame P D deck).players.get ⟨j, hj⟩).hand.length + 1) := by
  have hmod : D * 52 % P < P := Nat.mod_lt _ (by omega)
  have hdivmod : P * (D * 52 / P) + D * 52 % P = D * 52 := Nat.div_add_mod _ _
  have hlen0 := with_player_length D hP
  have hml := dealOut_map_len deck (D * 52 / P) (D * 52 % P)
    (BadamSat.with_player_and_deck_capacity P D).players 0 0
    (with_player_hands_empty P D) (by
      simp only [Nat.zero_add, hlen0]
      rw [range_if_sum _ P (D * 52 % P) (by omega)]
      omega)
  have hget : ∀ i (hp : i < (dealtGame P D deck).players.length),
      ((dealtGame P D deck).players.get ⟨i, hp⟩).hand.length =
        if i < D * 52 % P then D * 52 / P + 1 else D * 52 / P := by
    intro i hp
    have hp' : i < ((dealtGame P D deck).players.map (fun p => p.hand.length)).length := by
      simpa using hp
    have h1 : ((dealtGame P D deck).players.map (fun p => p.hand.length))[i] =
        ((dealtGame P D deck).players.get ⟨i, hp⟩).hand.length := by
      rw [List.getElem_map, List.get_eq_getElem]
    rw [← h1]
    simp only [dealtGame_players, hml, List.getElem_map, List.getElem_range]
    simp
  refine ⟨hget, ?_, ?_⟩
  · rw [dealtGame_players, hml]
    simp only [Nat.zero_add, hlen0]
    rw [range_if_sum _ P (D * 52 % P) (by omega)]
    omega
  · intro i j hi hj
    rw [hget i hi, hget j hj]
    split_ifs <;> omega

theorem claim_C6_witness :
    (∀ i (hp : i < (dealtGame 1 0 []).players.length),
      ((dealtGame 1 0 []).players.get ⟨i, hp⟩).hand.length =
        if i < 0 * 52 % 1 then 0 * 52 / 1 + 1 else 0 * 52 / 1) ∧
    ((dealtGame 1 0 []).players.map (fun p => p.hand.length)).sum = 0 * 52 ∧
    (∀ i j (hi : i < (dealtGame 1 0 []).players.length)
        (hj : j < (dealtGame 1 0 []).players.length),
      ((dealtGame 1 0 []).players.get ⟨i, hi⟩).hand.length ≤
        ((dealtGame 1 0 []).players.get ⟨j, hj⟩).hand.length + 1) :=
  claim_C6 1 0 [] (le_refl 1) (by decide)

/-- Dealing from `PrePlay` always lands in `InPlay` for player 0. -/
theorem update_deal_state {g : BadamSat} (deck : List Card) (h : g.state = .PrePlay) :
    ∃ va, ((g.update deck Transition.DealCards).fst).state = .InPlay 0 va := by
  obtain ⟨st, pls, pa, dk, pc⟩ := g
  simp only at h
  subst h
  exact ⟨_, rfl⟩

/-- C7: `Room::join` returns `RoomFull` iff the joined count already
equals the configured maximum (and then changes nothing); otherwise it
increments the count and returns a claim carrying the joining player's
index, and exactly the join that fills the room auto-applies
`DealCards`, moving a `PrePlay` game to `InPlay`. -/
theorem claim_C7 (r : Room) (deck : List Card) :
    ((r.join deck).snd = .error Error.RoomFull ↔
      r.joined_players = r.max_player_count) ∧
    (r.joined_players = r.max_player_count → (r.join deck).fst = r) ∧
    (r.joined_players ≠ r.max_player_count →
      (r.join deck).snd = .ok r.joined_players ∧
      (r.join deck).fst.joined_players = r.joined_players + 1 ∧
      (r.joined_players + 1 = r.max_player_count →
        (r.join deck).fst.game = (r.game.update deck Transition.DealCards).fst ∧
        (r.game.state = .PrePlay →
          ∃ va, (r.join deck).fst.game.state = .InPlay 0 va)) ∧
      (r.joined_players + 1 ≠ r.max_player_count →
        (r.join deck).fst.game = r.game)) := by
  by_cases hfull : r.max_player_count = r.joined_players
  · have hfb : r.is_full = true := by
      simp [Room.is_full, hfull]
    refine ⟨?_, fun _ => ?_, fun hne => absurd hfull.symm hne⟩
    · simp [Room.join, hfb, hfull]
    · simp [Room.join, hfb]
  · have hfb : r.is_full = false := by
      simp [Room.is_full, hfull]
    have hne' : r.joined_players ≠ r.max_player_count := fun h => hfull h.symm
    refine ⟨?_, fun h => absurd h hne', fun _ => ?_⟩
    · simp only [Room.join, hfb, Bool.false_eq_true, if_false]
      constructor
      · intro h
        split at h <;> cases h
      · intro h
        exact absurd h.symm hfull
    · refine ⟨?_, ?_, ?_, ?_⟩
      · simp only [Room.join, hfb, Bool.false_eq_true, if_false]
        split <;> rfl
      · simp only [Room.join, hfb, Bool.false_eq_true, if_false]
        split <;> rfl
      · intro hfill
        have hfb2 : Room.is_full { r with joined_players := r.joined_players + 1 } = true := by
          simp [Room.is_full, hfill]
        refine ⟨?_, ?_⟩
        · simp [Room.join, hfb, hfb2]
        · intro hpre
          simp only [Room.join, hfb, Bool.false_eq_true, if_false, hfb2, if_true]
          exact update_deal_state deck hpre
      · intro hnofill
        have hfb2 : Room.is_full { r with joined_players := r.joined_players + 1 } = false := by
          simp [Room.is_full]
          intro h
          exact hnofill h.symm
        simp [Room.join, hfb, hfb2]

theorem claim_C7_witness :
    (((Room.spawn 1 0).join []).snd = .ok 0 ∧
     ((Room.spawn 1 0).join []).fst.joined_players = 1) := by
  have h := (claim_C7 (Room.spawn 1 0) []).2.2 (by decide)
  exact ⟨h.1, h.2.1⟩

/-- C8: every room-scoped dispatcher operation returns `InvalidRoomId`
both when the identifier has no directory entry and when the entry's
actor has already exited (so channel send/receive fails); the
operations are total functions, so they can neither hang nor crash the
dispatcher. -/
theorem claim_C8 (deck : List Card) (action : RoomAction) (player : Nat) :
    (Server.join none deck = .error .InvalidRoomId ∧
     Server.play none action player = .error .InvalidRoomId ∧
     Server.hand none player = .error .InvalidRoomId ∧
     Server.last_move none = .error .InvalidRoomId ∧
     Server.game_state none = .error .InvalidRoomId) ∧
    (∀ handle : RoomHandle, handle.alive = false →
      Server.join (some handle) deck = .error .InvalidRoomId ∧
      Server.play (some handle) action player = .error .InvalidRoomId ∧
      Server.hand (some handle) player = .error .InvalidRoomId ∧
      Server.last_move (some handle) = .error .InvalidRoomId ∧
      Server.game_state (some handle) = .error .InvalidRoomId) := by
  refine ⟨⟨rfl, rfl, rfl, rfl, rfl⟩, ?_⟩
  intro handle hdead
  refine ⟨?_, ?_, ?_, ?_, ?_⟩ <;>
    simp [Server.join, Server.play, Server.hand, Server.last_move,
      Server.game_state, hdead]

theorem claim_C8_witness :
    Server.join (some ⟨false, Room.spawn 1 0⟩) [] = .error .InvalidRoomId ∧
    Server.play (some ⟨false, Room.spawn 1 0⟩) RoomAction.Pass 0 = .error .InvalidRoomId ∧
    Server.hand (some ⟨false, Room.spawn 1 0⟩) 0 = .error .InvalidRoomId ∧
    Server.last_move (some ⟨false, Room.spawn 1 0⟩) = .error .InvalidRoomId ∧
    Server.game_state (some ⟨false, Room.spawn 1 0⟩) = .error .InvalidRoomId :=
  (claim_C8 [] RoomAction.Pass 0).2 ⟨false, Room.spawn 1 0⟩ rfl

/-- A legal shuffle for one deck that puts all hearts at the bottom, so
with two players the first player's 26 cards contain no hearts. -/
def c9Deck : List Card :=
  (standardDeck.filter (fun c => !(c.suit == Suit.hearts))) ++
  (standardDeck.filter (fun c => c.suit == Suit.hearts))

/-- A 2-player, 1-deck room after both joins (dealt from `c9Deck`):
player 0 holds no seven of hearts, so their only valid action is
`Pass`. -/
def c9Room : Room := (((Room.spawn 2 1).join c9Deck).fst.join c9Deck).fst

/-- C9 counterexample: the room accepts the `Pass` command (player 0's
only legal action on the freshly dealt game) yet `last_move` stays
`None`, so `get_last_move` reports `NoMove` — not the accepted
command's action. -/
theorem claim_C9_counterexample :
    c9Deck.Perm (fullDeck 1) ∧
    (c9Room.play RoomAction.Pass 0).snd = .ok () ∧
    (c9Room.play RoomAction.Pass 0).fst.last_move = none ∧
    Server.last_move (some ⟨true, (c9Room.play RoomAction.Pass 0).fst⟩) =
      .error .NoMove := by
  refine ⟨?_, by decide, by decide, by decide⟩
  have : c9Deck.Perm standardDeck := List.filter_append_perm _ _
  simpa [fullDeck] using this

/-- C9 (amended): the room stores the last accepted `Play`: after an
accepted `Play(card)` command `get_last_move` returns exactly that
action, while an accepted `Pass` (and any rejected command, and any
join) leaves the stored move unchanged; it is `None` at room creation,
so `NoMove` is reported exactly until the first accepted `Play`. -/
theorem claim_C9 (r : Room) (action : RoomAction) (player : Nat) :
    ((r.play action player).snd = .ok () →
      (∀ c, action = .Play c →
        (r.play action player).fst.last_move = some (RoomAction.Play c)) ∧
      (action = .Pass →
        (r.play action player).fst.last_move = r.last_move)) ∧
    ((r.play action player).snd ≠ .ok () →
      (r.play action player).fst.last_move = r.last_move) ∧
    (∀ deck, (r.join deck).fst.last_move = r.last_move) ∧
    (∀ players decks, (Room.spawn players decks).last_move = none) := by
  refine ⟨?_, ?_, ?_, fun players decks => rfl⟩
  · intro hok
    cases action with
    | Play c0 =>
        refine ⟨?_, ?_⟩
        · intro c hc
          injection hc with hc
          subst hc
          unfold Room.play at hok ⊢
          by_cases hfull : r.is_full = false
          · rw [if_pos hfull] at hok
            cases hok
          · rw [if_neg hfull] at hok ⊢
            simp only [RoomAction.toTransition, RoomAction.isPlay, if_true] at hok ⊢
            split at hok
            next heq => rfl
            next heq => cases hok
        · intro hc
          cases hc
    | Pass =>
        refine ⟨?_, ?_⟩
        · intro c hc
          cases hc
        · intro hc
          unfold Room.play at hok ⊢
          by_cases hfull : r.is_full = false
          · rw [if_pos hfull] at hok
            cases hok
          · rw [if_neg hfull] at hok ⊢
            simp only [RoomAction.toTransition, RoomAction.isPlay, Bool.false_eq_true,
              if_false] at hok ⊢
            split at hok
            next heq => rfl
            next heq => cases hok
  · intro herr
    cases action with
    | Play c0 =>
        unfold Room.play at herr ⊢
        by_cases hfull : r.is_full = false
        · rw [if_pos hfull]
        · rw [if_neg hfull] at herr ⊢
          split at herr
          next heq => exact absurd rfl herr
          next heq => rfl
    | Pass =>
        unfold Room.play at herr ⊢
        by_cases hfull : r.is_full = false
        · rw [if_pos hfull]
        · rw [if_neg hfull] at herr ⊢
          split at herr
          next heq => exact absurd rfl herr
          next heq => rfl
  · intro deck
    unfold Room.join
    by_cases hfull : r.is_full = true
    · rw [if_pos hfull]
    · rw [if_neg hfull]
      simp only []
      split_ifs <;> rfl

theorem claim_C9_witness :
    (((Room.spawn 1 0).join []).fst.play RoomAction.Pass 0).fst.last_move =
      ((Room.spawn 1 0).join []).fst.last_move := by
  have h := (claim_C9 ((Room.spawn 1 0).join []).fst RoomAction.Pass 0).1 (by decide)
  exact h.2 rfl

/-- C10 (implicit): in every reachable `InPlay` state, each play in the
valid-action set names the current player, a card present in that
player's hand, and a card some stack accepts — so the
`try_play(..).unwrap()` and `remove_card` calls in `update`'s accepted
play branch cannot panic. -/
theorem claim_C10 {P D : Nat} {g : BadamSat} {pidx : Nat} {va : Finset Transition}
    (hP : 1 ≤ P) (hreach : Reachable P D g) (hst : g.state = .InPlay pidx va) :
    ∀ p c, Transition.Play p c ∈ va →
      p = pidx ∧ c ∈ (g.playerOf pidx).hand ∧
        (g.playing_area.try_play c).isSome := by
  obtain ⟨-, -, -, -, -, hstate⟩ := inv_reachable hP hreach
  simp only [hst] at hstate
  obtain ⟨-, hva, -⟩ := hstate
  intro p c hmem
  rw [hva] at hmem
  obtain ⟨hp, hcv, hch⟩ := mem_actions_for_play hmem
  refine ⟨hp, hch, ?_⟩
  unfold BadamSat.validCards at hcv
  obtain ⟨s, hsmem, hsnext⟩ := mem_foldr_union.mp hcv
  have hsome := tryPlayList_isSome ⟨s, hsmem, nextPlayable_accepts hsnext⟩
  unfold PlayingArea.try_play
  simpa using hsome

theorem claim_C10_witness :
    (0 : Nat) = 0 ∧
    sevenOfHearts ∈ ((dealtGame 1 1 (fullDeck 1)).playerOf 0).hand ∧
    ((dealtGame 1 1 (fullDeck 1)).playing_area.try_play sevenOfHearts).isSome :=
  @claim_C10 1 1 (dealtGame 1 1 (fullDeck 1)) 0
    {Transition.Play 0 sevenOfHearts} (le_refl 1)
    (Reachable.step _ (fullDeck 1) _ Reachable.init (List.Perm.refl _))
    (by decide) 0 sevenOfHearts (by decide)
